import Mathlib

set_option maxHeartbeats 1000000

/- A verification model of webpack's InnerGraphPlugin
   (lib/optimize/InnerGraphPlugin.js).

   The plugin keeps an inner graph: a JS Map from keys (TopLevelSymbol or
   PureExpressionDependency objects) to values that are either the sentinel
   `true`, or a JS Set of items that are export-name strings or
   TopLevelSymbol references.  We model both kinds of key by natural-number
   identifiers, a JS Set by a duplicate-free list in insertion order, and a
   JS Map by a function to Option (with `none` standing for both an absent
   key and an explicitly stored `undefined`, which `Map.get` cannot
   distinguish). -/

/-- An element of a graph value set: `string | TopLevelSymbol`. -/
inductive GraphItem where
  | str : String → GraphItem
  | sym : Nat → GraphItem
deriving DecidableEq

/-- A present graph value: `Set<string | TopLevelSymbol> | true`. -/
inductive GraphValue where
  | always : GraphValue
  | items : List GraphItem → GraphValue
deriving DecidableEq

/-- JS `Set.prototype.add`: append if absent, keep position otherwise. -/
def addItem (l : List GraphItem) (e : GraphItem) : List GraphItem :=
  if e ∈ l then l else l ++ [e]

/-- Pointwise update of the inner graph, JS `innerGraph.set(k, v)`. -/
def setVal (g : Nat → Option GraphValue) (k : Nat) (v : Option GraphValue) :
    Nat → Option GraphValue :=
  fun n => if n = k then v else g n

/-- The argument type of `TopLevelSymbol.addDependency`:
`string | TopLevelSymbol | true`. -/
inductive DepArg where
  | str : String → DepArg
  | sym : Nat → DepArg
  | always : DepArg
deriving DecidableEq

/-- The non-`true` branches of `addDependency` (lines 50-54 of the source):
if the current info is `undefined`, store a fresh singleton set; if it is
`true`, do nothing; otherwise add the item to the existing set. -/
def addDependencyItem (g : Nat → Option GraphValue) (self : Nat) (e : GraphItem) :
    Nat → Option GraphValue :=
  match g self with
  | none => setVal g self (some (GraphValue.items [e]))
  | some GraphValue.always => g
  | some (GraphValue.items l) => setVal g self (some (GraphValue.items (addItem l e)))

/-- The method `TopLevelSymbol.addDependency(dep)` (lines 46-55 of the
source): the `dep === true` test comes first and stores the sentinel unconditionally. -/
def addDependency (g : Nat → Option GraphValue) (self : Nat) (dep : DepArg) :
    Nat → Option GraphValue :=
  match dep with
  | DepArg.always => setVal g self (some GraphValue.always)
  | DepArg.str s => addDependencyItem g self (GraphItem.str s)
  | DepArg.sym k => addDependencyItem g self (GraphItem.sym k)

/-- State of the finish-hook flattener: the inner graph plus the
`unexpanded` working set (a JS Set of keys, duplicate-free). -/
structure FlattenState where
  g : Nat → Option GraphValue
  unexp : List Nat

/-- The inner loop of `expand` that copies the string members of a resolved
child value into `newSet` (lines 104-108 of the source). -/
def mergeStrings (acc : List GraphItem) (l : List GraphItem) : List GraphItem :=
  l.foldl (fun a e =>
    match e with
    | GraphItem.str s => addItem a (GraphItem.str s)
    | GraphItem.sym _ => a) acc

/-- The `for (const item of value)` loop body of `expand` (lines 93-116 of
the source), abstracted over the recursive `expand` call `expandF`.  A
string item is added to `newSet`; a symbol item is expanded first, then its
value is consulted: `true` propagates to `key` immediately (the early
`return`), a set contributes its strings, `undefined` contributes nothing.
After the loop, an empty `newSet` stores `undefined`, otherwise `newSet`. -/
def expandItemsAux (expandF : FlattenState → Nat → FlattenState) :
    FlattenState → Nat → List GraphItem → List GraphItem → FlattenState
  | st, key, [], newSet =>
    if newSet = [] then ⟨setVal st.g key none, st.unexp⟩
    else ⟨setVal st.g key (some (GraphValue.items newSet)), st.unexp⟩
  | st, key, GraphItem.str s :: rest, newSet =>
    expandItemsAux expandF st key rest (addItem newSet (GraphItem.str s))
  | st, key, GraphItem.sym k :: rest, newSet =>
    let st' := expandF st k
    match st'.g k with
    | some GraphValue.always => ⟨setVal st'.g key (some GraphValue.always), st'.unexp⟩
    | some (GraphValue.items l') => expandItemsAux expandF st' key rest (mergeStrings newSet l')
    | none => expandItemsAux expandF st' key rest newSet

/-- The `expand` closure of the finish hook (lines 88-117 of the source):
a key not in the working set is already resolved; otherwise it is removed
eagerly, and a stored set value is rebuilt from its children.  The JS
function is recursive with no explicit bound; `fuel` bounds the recursion
depth of the model, and the depth actually needed is at most the size of
the working set because every call removes a key before recursing (this is
proved below, as fuel-irrelevance). -/
def expand (fuel : Nat) (st : FlattenState) (key : Nat) : FlattenState :=
  match fuel with
  | 0 => st
  | f + 1 =>
    if key ∈ st.unexp then
      let st1 : FlattenState := ⟨st.g, st.unexp.erase key⟩
      match st1.g key with
      | none => st1
      | some GraphValue.always => st1
      | some (GraphValue.items l) =>
        expandItemsAux (fun s k => expand f s k) st1 key l []
    else st

/-- One top-level `expand(item)` call of the `for (const item of unexpanded)`
loop, supplied with always-sufficient fuel. -/
def expandTop (st : FlattenState) (key : Nat) : FlattenState :=
  expand (st.unexp.length + 1) st key

/-- The whole flattening loop (lines 118-120 of the source), run over an
explicit iteration order: an `expand` on a key that has already been removed
from the working set is a no-op, exactly as the live JS Set iterator skips
deleted elements. -/
def flattenOrder (st : FlattenState) (order : List Nat) : FlattenState :=
  order.foldl expandTop st

/- ----------------------------------------------------------------- -/
/- Purity classifier and declarator handling                          -/
/- ----------------------------------------------------------------- -/

/-- The syntactic shapes of initializer expressions the plugin inspects. -/
inductive Expr where
  | identifier : Expr
  | literal : Expr
  | conditionalExpression : Expr → Expr → Expr → Expr
  | functionExpression : Expr
  | arrowFunctionExpression : Expr
  | classExpression : Expr
  | callExpression : Expr
  | newExpression : Expr
  | memberExpression : Expr
  | otherExpression : Expr
deriving DecidableEq

/-- The `isPure` predicate (lines 18-30 of the source). -/
def isPure : Expr → Bool
  | Expr.identifier => true
  | Expr.literal => true
  | Expr.conditionalExpression t c a => isPure t && isPure c && isPure a
  | _ => false

/-- A source comment: its `type` field and text. -/
structure SrcComment where
  ctype : String
  value : String
deriving DecidableEq

def isCommentWS (c : Char) : Bool :=
  c = ' ' || c = '\t' || c = '\n' || c = '\r'

/-- Model of the test of `/^\s*(#|@)__PURE__\s*$/` against a comment text. -/
def pureCommentRE (s : String) : Bool :=
  let l := ((s.data.dropWhile isCommentWS).reverse.dropWhile isCommentWS).reverse
  l == "#__PURE__".data || l == "@__PURE__".data

/-- A variable declarator as the `preDeclarator` hook sees it: the `id`
node's type and name, the end offset of `id.range`, the optional `init`
expression with the start offset of its range, and the comments that
`parser.getComments([decl.id.range[1], decl.init.range[0]])` returns. -/
structure VarDeclarator where
  idType : String
  idName : String
  idRangeEnd : Nat
  init : Option Expr
  initRangeStart : Nat
  commentsBetween : List SrcComment
deriving DecidableEq

/-- The outcome of the `preDeclarator` hook for one declarator. -/
inductive PreDeclAction where
  | skip : PreDeclAction
  | tagFunction : PreDeclAction
  | tagPure : PreDeclAction
deriving DecidableEq

/-- The `preDeclarator` hook (lines 198-235 of the source).  At top level,
with an init and a plain identifier id: a function, arrow-function or class
expression init is tagged without a dependency; otherwise the declarator is
tagged as pure when the gap between `id.range[1]` and `init.range[0]` is
strictly greater than 9 and a Block comment in that gap matches the pure
pragma, or when `isPure` accepts the init.  Everything else is skipped. -/
def preDeclarator (topLevelScope : Bool) (d : VarDeclarator) : PreDeclAction :=
  match d.init with
  | none => PreDeclAction.skip
  | some init =>
    if topLevelScope = true ∧ d.idType = "Identifier" then
      if init = Expr.functionExpression ∨ init = Expr.arrowFunctionExpression ∨
          init = Expr.classExpression then
        PreDeclAction.tagFunction
      else if (9 < d.initRangeStart - d.idRangeEnd ∧
            d.commentsBetween.any
              (fun c => c.ctype == "Block" && pureCommentRE c.value) = true) ∨
          isPure init = true then
        PreDeclAction.tagPure
      else PreDeclAction.skip
    else PreDeclAction.skip

/- ----------------------------------------------------------------- -/
/- Symbol registry and traversal state                                -/
/- ----------------------------------------------------------------- -/

/-- The per-module analysis state relevant to symbol registration: the tag
data attached to variable names (`topLevelSymbolTag`), a counter producing
fresh identifiers for new TopLevelSymbol and dependency objects, the inner
graph and the `harmonyAllExportDependentDependencies` pending set. -/
structure ParserState where
  tags : String → Option Nat
  nextId : Nat
  innerGraph : Nat → Option GraphValue
  pending : List Nat

/-- The `tagVar` helper (lines 184-194 of the source): reuse the existing
tag data for the name when present, otherwise create a fresh symbol and
tag the name with it. -/
def tagVar (ps : ParserState) (name : String) : Nat × ParserState :=
  match ps.tags name with
  | some fn => (fn, ps)
  | none =>
    (ps.nextId,
      { ps with
        tags := fun n => if n = name then some ps.nextId else ps.tags n,
        nextId := ps.nextId + 1 })

/-- Registration performed by the `preStatement` hook for a top-level
`FunctionDeclaration` (lines 139-152 of the source) and by
`blockPreStatement` for class and export-default declarations: a fresh
TopLevelSymbol is always created and the name is re-tagged with it. -/
def registerTopLevelFunction (ps : ParserState) (name : String) : Nat × ParserState :=
  (ps.nextId,
    { ps with
      tags := fun n => if n = name then some ps.nextId else ps.tags n,
      nextId := ps.nextId + 1 })

/-- The combined effect on the analysis state of the `preDeclarator` hook
followed by the `declarator` hook for one top-level variable declarator:
a skipped declarator leaves the state untouched; a function-like init only
registers a symbol; a pure declarator registers a symbol, creates one
PureExpressionDependency, seeds the graph at the dependency with the
singleton set holding the symbol, and adds the dependency to the pending
set (lines 245-262 of the source). -/
def processDeclarator (topLevelScope : Bool) (d : VarDeclarator) (ps : ParserState) :
    ParserState :=
  match preDeclarator topLevelScope d with
  | PreDeclAction.skip => ps
  | PreDeclAction.tagFunction => (tagVar ps d.idName).2
  | PreDeclAction.tagPure =>
    let fn := (tagVar ps d.idName).1
    let ps' := (tagVar ps d.idName).2
    let dep := ps'.nextId
    { ps' with
      nextId := ps'.nextId + 1,
      innerGraph := setVal ps'.innerGraph dep (some (GraphValue.items [GraphItem.sym fn])),
      pending := ps'.pending ++ [dep] }

/-- The expression hook for `topLevelSymbolTag` (lines 263-270 of the
source): a resolved reference to a tagged symbol records
`addDependency(currentTopLevelSymbol || true)` on it. -/
def expressionHookOnTag (g : Nat → Option GraphValue) (taggedSym : Nat)
    (currentTopLevelSymbol : Option Nat) : Nat → Option GraphValue :=
  addDependency g taggedSym
    (match currentTopLevelSymbol with
     | some c => DepArg.sym c
     | none => DepArg.always)

/- ----------------------------------------------------------------- -/
/- Publication                                                        -/
/- ----------------------------------------------------------------- -/

/-- The published `usedByExports` decision of one dependency. -/
inductive UsedByExports where
  | notUsed : UsedByExports
  | always : UsedByExports
  | exportsSet : List GraphItem → UsedByExports
deriving DecidableEq

/-- The switch of the publication loop (lines 123-134 of the source):
`undefined` publishes `false`, `true` publishes `true`, and a set value is
published as-is. -/
def publishDecision (v : Option GraphValue) : UsedByExports :=
  match v with
  | none => UsedByExports.notUsed
  | some GraphValue.always => UsedByExports.always
  | some (GraphValue.items l) => UsedByExports.exportsSet l

/-- One iteration of the publication loop: assign the decision of `dep`. -/
def pubStep (g : Nat → Option GraphValue) (acc : Nat → Option UsedByExports)
    (dep : Nat) : Nat → Option UsedByExports :=
  fun n => if n = dep then some (publishDecision (g dep)) else acc n

/-- The publication loop over the pending set (lines 121-135 of the
source), reading the flattened graph. -/
def runPublication (g : Nat → Option GraphValue) (pending : List Nat) :
    Nat → Option UsedByExports :=
  pending.foldl (pubStep g) (fun _ => none)

/- ----------------------------------------------------------------- -/
/- Basic unfolding lemmas for the flattener                           -/
/- ----------------------------------------------------------------- -/

theorem expand_zero (st : FlattenState) (key : Nat) : expand 0 st key = st := rfl

theorem expand_not_mem (f : Nat) (st : FlattenState) (key : Nat)
    (h : key ∉ st.unexp) : expand f st key = st := by
  cases f with
  | zero => rfl
  | succ f => simp [expand, h]

theorem expand_succ_none (f : Nat) (st : FlattenState) (key : Nat)
    (hmem : key ∈ st.unexp) (hg : st.g key = none) :
    expand (f + 1) st key = ⟨st.g, st.unexp.erase key⟩ := by
  simp [expand, hmem, hg]

theorem expand_succ_always (f : Nat) (st : FlattenState) (key : Nat)
    (hmem : key ∈ st.unexp) (hg : st.g key = some GraphValue.always) :
    expand (f + 1) st key = ⟨st.g, st.unexp.erase key⟩ := by
  simp [expand, hmem, hg]

theorem expand_succ_items (f : Nat) (st : FlattenState) (key : Nat)
    (l : List GraphItem) (hmem : key ∈ st.unexp)
    (hg : st.g key = some (GraphValue.items l)) :
    expand (f + 1) st key =
      expandItemsAux (fun s k => expand f s k) ⟨st.g, st.unexp.erase key⟩ key l [] := by
  simp [expand, hmem, hg]

theorem expandItemsAux_nil (F : FlattenState → Nat → FlattenState)
    (st : FlattenState) (key : Nat) (newSet : List GraphItem) :
    expandItemsAux F st key [] newSet =
      if newSet = [] then ⟨setVal st.g key none, st.unexp⟩
      else ⟨setVal st.g key (some (GraphValue.items newSet)), st.unexp⟩ := rfl

theorem expandItemsAux_str (F : FlattenState → Nat → FlattenState)
    (st : FlattenState) (key : Nat) (s : String) (rest : List GraphItem)
    (newSet : List GraphItem) :
    expandItemsAux F st key (GraphItem.str s :: rest) newSet =
      expandItemsAux F st key rest (addItem newSet (GraphItem.str s)) := rfl

theorem expandItemsAux_sym_always (F : FlattenState → Nat → FlattenState)
    (st : FlattenState) (key k : Nat) (rest : List GraphItem)
    (newSet : List GraphItem) (h : (F st k).g k = some GraphValue.always) :
    expandItemsAux F st key (GraphItem.sym k :: rest) newSet =
      ⟨setVal (F st k).g key (some GraphValue.always), (F st k).unexp⟩ := by
  simp [expandItemsAux, h]

theorem expandItemsAux_sym_items (F : FlattenState → Nat → FlattenState)
    (st : FlattenState) (key k : Nat) (rest : List GraphItem)
    (newSet l' : List GraphItem) (h : (F st k).g k = some (GraphValue.items l')) :
    expandItemsAux F st key (GraphItem.sym k :: rest) newSet =
      expandItemsAux F (F st k) key rest (mergeStrings newSet l') := by
  simp [expandItemsAux, h]

theorem expandItemsAux_sym_none (F : FlattenState → Nat → FlattenState)
    (st : FlattenState) (key k : Nat) (rest : List GraphItem)
    (newSet : List GraphItem) (h : (F st k).g k = none) :
    expandItemsAux F st key (GraphItem.sym k :: rest) newSet =
      expandItemsAux F (F st k) key rest newSet := by
  simp [expandItemsAux, h]

/- ----------------------------------------------------------------- -/
/- The working set only shrinks                                       -/
/- ----------------------------------------------------------------- -/

theorem expandItemsAux_sublist (F : FlattenState → Nat → FlattenState)
    (hF : ∀ st k, List.Sublist (F st k).unexp st.unexp) :
    ∀ (items : List GraphItem) (st : FlattenState) (key : Nat)
      (newSet : List GraphItem),
      List.Sublist (expandItemsAux F st key items newSet).unexp st.unexp := by
  intro items
  induction items with
  | nil =>
    intro st key newSet
    rw [expandItemsAux_nil]
    split
    · exact List.Sublist.refl _
    · exact List.Sublist.refl _
  | cons e rest ih =>
    intro st key newSet
    cases e with
    | str s =>
      rw [expandItemsAux_str]
      exact ih st key _
    | sym k =>
      rcases hv : (F st k).g k with _ | v
      · rw [expandItemsAux_sym_none F st key k rest newSet hv]
        exact (ih (F st k) key newSet).trans (hF st k)
      · cases v with
        | always =>
          rw [expandItemsAux_sym_always F st key k rest newSet hv]
          exact hF st k
        | items l' =>
          rw [expandItemsAux_sym_items F st key k rest newSet l' hv]
          exact (ih (F st k) key _).trans (hF st k)

theorem expand_sublist : ∀ (f : Nat) (st : FlattenState) (key : Nat),
    List.Sublist (expand f st key).unexp st.unexp := by
  intro f
  induction f with
  | zero => intro st key; exact List.Sublist.refl _
  | succ f ih =>
    intro st key
    by_cases hmem : key ∈ st.unexp
    · rcases hv : st.g key with _ | v
      · rw [expand_succ_none f st key hmem hv]
        exact List.erase_sublist key st.unexp
      · cases v with
        | always =>
          rw [expand_succ_always f st key hmem hv]
          exact List.erase_sublist key st.unexp
        | items l =>
          rw [expand_succ_items f st key l hmem hv]
          exact (expandItemsAux_sublist _ (fun s k => ih s k) l
              ⟨st.g, st.unexp.erase key⟩ key []).trans
            (List.erase_sublist key st.unexp)
    · rw [expand_not_mem _ _ _ hmem]

theorem expand_removes (f : Nat) (st : FlattenState) (key : Nat) (hf : 1 ≤ f)
    (hnd : st.unexp.Nodup) : key ∉ (expand f st key).unexp := by
  cases f with
  | zero => omega
  | succ f =>
    by_cases hmem : key ∈ st.unexp
    · have herase : key ∉ st.unexp.erase key := hnd.not_mem_erase
      rcases hv : st.g key with _ | v
      · rw [expand_succ_none f st key hmem hv]; exact herase
      · cases v with
        | always => rw [expand_succ_always f st key hmem hv]; exact herase
        | items l =>
          rw [expand_succ_items f st key l hmem hv]
          intro hin
          exact herase
            ((expandItemsAux_sublist _ (fun s k => expand_sublist f s k) l
              ⟨st.g, st.unexp.erase key⟩ key []).subset hin)
    · rw [expand_not_mem _ _ _ hmem]; exact hmem

/- ----------------------------------------------------------------- -/
/- Fuel irrelevance: the recursion depth of `expand` is bounded       -/
/- ----------------------------------------------------------------- -/

theorem expandItemsAux_congr (F1 F2 : FlattenState → Nat → FlattenState) (N : Nat)
    (hsub : ∀ st k, List.Sublist (F1 st k).unexp st.unexp)
    (hF : ∀ st k, st.unexp.length < N → F1 st k = F2 st k) :
    ∀ (items : List GraphItem) (st : FlattenState) (key : Nat)
      (newSet : List GraphItem), st.unexp.length < N →
      expandItemsAux F1 st key items newSet = expandItemsAux F2 st key items newSet := by
  intro items
  induction items with
  | nil => intro st key newSet hlen; rfl
  | cons e rest ih =>
    intro st key newSet hlen
    cases e with
    | str s =>
      rw [expandItemsAux_str, expandItemsAux_str]
      exact ih st key _ hlen
    | sym k =>
      have heq : F1 st k = F2 st k := hF st k hlen
      have hlen' : (F1 st k).unexp.length < N := by
        have := (hsub st k).length_le
        omega
      rcases hv : (F1 st k).g k with _ | v
      · rw [expandItemsAux_sym_none F1 st key k rest newSet hv,
          expandItemsAux_sym_none F2 st key k rest newSet (heq ▸ hv), ← heq]
        exact ih (F1 st k) key newSet hlen'
      · cases v with
        | always =>
          rw [expandItemsAux_sym_always F1 st key k rest newSet hv,
            expandItemsAux_sym_always F2 st key k rest newSet (heq ▸ hv), ← heq]
        | items l' =>
          rw [expandItemsAux_sym_items F1 st key k rest newSet l' hv,
            expandItemsAux_sym_items F2 st key k rest newSet l' (heq ▸ hv), ← heq]
          exact ih (F1 st k) key _ hlen'

theorem expand_fuel_succ : ∀ (f : Nat) (st : FlattenState) (key : Nat),
    st.unexp.length < f → expand f st key = expand (f + 1) st key := by
  intro f
  induction f with
  | zero => intro st key h; exact absurd h (Nat.not_lt_zero _)
  | succ f ih =>
    intro st key hlen
    by_cases hmem : key ∈ st.unexp
    · rcases hv : st.g key with _ | v
      · rw [expand_succ_none f st key hmem hv, expand_succ_none (f + 1) st key hmem hv]
      · cases v with
        | always =>
          rw [expand_succ_always f st key hmem hv,
            expand_succ_always (f + 1) st key hmem hv]
        | items l =>
          rw [expand_succ_items f st key l hmem hv,
            expand_succ_items (f + 1) st key l hmem hv]
          have h1 : (st.unexp.erase key).length = st.unexp.length - 1 :=
            List.length_erase_of_mem hmem
          have h2 : st.unexp ≠ [] := List.ne_nil_of_mem hmem
          have h3 : 0 < st.unexp.length := List.length_pos.mpr h2
          exact expandItemsAux_congr (fun s k => expand f s k)
            (fun s k => expand (f + 1) s k) f (fun s k => expand_sublist f s k)
            (fun s k h => ih s k h) l ⟨st.g, st.unexp.erase key⟩ key []
            (by simp only []; omega)
    · rw [expand_not_mem (f + 1) st key hmem, expand_not_mem (f + 1 + 1) st key hmem]

theorem expand_fuel_add : ∀ (d f : Nat) (st : FlattenState) (key : Nat),
    st.unexp.length < f → expand f st key = expand (f + d) st key := by
  intro d
  induction d with
  | zero => intro f st key h; rfl
  | succ d ih =>
    intro f st key h
    rw [ih f st key h]
    have h' : st.unexp.length < f + d := by omega
    rw [expand_fuel_succ (f + d) st key h']
    rfl

/-- C3: flattening terminates for every finite usage graph, including
graphs with self-cycles and N-node cycles.  In the fuel-indexed model the
recursion depth needed by `expand` is bounded by the size of the working
set, because each key is removed from the working set before its children
are recursively expanded: any two fuels exceeding that size produce the
same result, i.e. the computation stabilizes. -/
theorem expand_fuel_irrelevant (st : FlattenState) (key : Nat) (f1 f2 : Nat)
    (h1 : st.unexp.length < f1) (h2 : st.unexp.length < f2) :
    expand f1 st key = expand f2 st key := by
  have e1 : expand (st.unexp.length + 1) st key = expand f1 st key := by
    have hf : f1 = (st.unexp.length + 1) + (f1 - (st.unexp.length + 1)) := by omega
    rw [hf]
    exact expand_fuel_add _ _ st key (by omega)
  have e2 : expand (st.unexp.length + 1) st key = expand f2 st key := by
    have hf : f2 = (st.unexp.length + 1) + (f2 - (st.unexp.length + 1)) := by omega
    rw [hf]
    exact expand_fuel_add _ _ st key (by omega)
  exact e1.symm.trans e2

/-- A graph with a self-cycle at key 0 and a two-node cycle between 0 and 1,
with one leaf string reachable. -/
def exCycleG : Nat → Option GraphValue := fun n =>
  if n = 0 then some (GraphValue.items [GraphItem.sym 0, GraphItem.sym 1])
  else if n = 1 then some (GraphValue.items [GraphItem.sym 0, GraphItem.str "x"])
  else none

def exCycleSt : FlattenState := ⟨exCycleG, [0, 1]⟩

theorem expand_fuel_irrelevant_witness :
    exCycleSt.unexp.length < 3 ∧ exCycleSt.unexp.length < 40 ∧
      expand 3 exCycleSt 0 = expand 40 exCycleSt 0 :=
  ⟨by decide, by decide, expand_fuel_irrelevant exCycleSt 0 3 40 (by decide) (by decide)⟩

/- ----------------------------------------------------------------- -/
/- Claims about the purity pragma (C2)                                -/
/- ----------------------------------------------------------------- -/

/-- The declarator of a binding like `const a = /* @__PURE__ */ f()`, but
with a gap of only 5 characters between the end of the binding identifier
and the start of the initializer, and an impure (call) initializer. -/
def pureCommentCloseDecl : VarDeclarator :=
  ⟨"Identifier", "a", 10, some Expr.callExpression, 15,
    [⟨"Block", " @__PURE__ "⟩]⟩

/-- C2 counterexample: a top-level declarator whose initializer is preceded
by a block comment matching the pure pragma, with a binding-to-initializer
gap of 5 ≤ 9 characters, is NOT treated as pure: the hook skips it (the
source requires the gap to be strictly greater than 9, line 217). -/
theorem preDeclarator_close_pure_comment_skipped :
    pureCommentCloseDecl.initRangeStart - pureCommentCloseDecl.idRangeEnd ≤ 9 ∧
      pureCommentCloseDecl.commentsBetween.any
        (fun c => c.ctype == "Block" && pureCommentRE c.value) = true ∧
      preDeclarator true pureCommentCloseDecl ≠ PreDeclAction.tagPure := by
  refine ⟨by decide, by decide, by decide⟩

/-- C2 (amended): for every top-level variable declarator binding a plain
identifier whose initializer is not a function, arrow-function or class
expression, if the gap between the end of the binding identifier and the
start of the initializer is strictly GREATER than 9 characters and some
block comment in that gap matches the pure pragma, the initializer is
treated as pure regardless of its syntactic shape (the declarator is
tagged pure, which creates a UsageDependency). -/
theorem preDeclarator_far_pure_comment_tagged (d : VarDeclarator) (i : Expr)
    (hid : d.idType = "Identifier") (hinit : d.init = some i)
    (hfn : ¬(i = Expr.functionExpression ∨ i = Expr.arrowFunctionExpression ∨
      i = Expr.classExpression))
    (hgap : 9 < d.initRangeStart - d.idRangeEnd)
    (hc : d.commentsBetween.any
      (fun c => c.ctype == "Block" && pureCommentRE c.value) = true) :
    preDeclarator true d = PreDeclAction.tagPure := by
  unfold preDeclarator
  simp only [hinit]
  rw [if_pos ⟨trivial, hid⟩, if_neg hfn, if_pos (Or.inl ⟨hgap, hc⟩)]

/-- The same declarator with an impure initializer and a pragma comment,
but with a gap of 14 characters. -/
def pureCommentFarDecl : VarDeclarator :=
  ⟨"Identifier", "a", 10, some Expr.callExpression, 24,
    [⟨"Block", " @__PURE__ "⟩]⟩

theorem preDeclarator_far_pure_comment_tagged_witness :
    preDeclarator true pureCommentFarDecl = PreDeclAction.tagPure :=
  preDeclarator_far_pure_comment_tagged pureCommentFarDecl Expr.callExpression
    rfl rfl (by decide) (by decide) (by decide)

/- ----------------------------------------------------------------- -/
/- addDependency semantics (C4)                                       -/
/- ----------------------------------------------------------------- -/

/-- The claim's description of `addDependency`, as the spec words it: if
the symbol's current graph value is always-used, the call is a no-op; if
the target is the always-used sentinel, the value becomes always-used,
replacing any partial set; otherwise the target is added to the symbol's
set, creating the set when the value was unset. -/
def addDependencySpec (g : Nat → Option GraphValue) (self : Nat) (dep : DepArg) :
    Nat → Option GraphValue :=
  if g self = some GraphValue.always then g
  else
    match dep with
    | DepArg.always => setVal g self (some GraphValue.always)
    | DepArg.str s =>
      match g self with
      | none => setVal g self (some (GraphValue.items [GraphItem.str s]))
      | some (GraphValue.items l) =>
        setVal g self (some (GraphValue.items (addItem l (GraphItem.str s))))
      | some GraphValue.always => g
    | DepArg.sym k =>
      match g self with
      | none => setVal g self (some (GraphValue.items [GraphItem.sym k]))
      | some (GraphValue.items l) =>
        setVal g self (some (GraphValue.items (addItem l (GraphItem.sym k))))
      | some GraphValue.always => g

/-- C4: `addDependency(target)` behaves exactly as the spec describes: a
no-op on an always-used symbol, always-used replacing any value when the
target is the sentinel, and otherwise insertion into the (possibly fresh)
set.  The two descriptions test the conditions in a different order but
produce the same graph on every input. -/
theorem addDependency_eq_spec (g : Nat → Option GraphValue) (self : Nat)
    (dep : DepArg) : addDependency g self dep = addDependencySpec g self dep := by
  rcases hg : g self with _ | v
  · cases dep <;> simp [addDependency, addDependencySpec, addDependencyItem, hg]
  · cases v with
    | always =>
      cases dep with
      | always =>
        simp only [addDependency, addDependencySpec, hg, if_pos]
        funext n
        by_cases hn : n = self
        · simp [setVal, hn, hg]
        · simp [setVal, hn]
      | str s => simp [addDependency, addDependencySpec, addDependencyItem, hg]
      | sym k => simp [addDependency, addDependencySpec, addDependencyItem, hg]
    | items l =>
      cases dep <;> simp [addDependency, addDependencySpec, addDependencyItem, hg]

/- ----------------------------------------------------------------- -/
/- Symbol registration (C7)                                           -/
/- ----------------------------------------------------------------- -/

def emptyParserState : ParserState := ⟨fun _ => none, 0, fun _ => none, []⟩

/-- C7 counterexample: registering the same top-level function name twice
through the `preStatement` handler does NOT return the previously created
TopLevelSymbol — a fresh symbol is created each time (the handler calls
`new TopLevelSymbol` unconditionally, lines 146-147). -/
theorem registerTopLevelFunction_not_idempotent :
    (registerTopLevelFunction
        (registerTopLevelFunction emptyParserState "f").2 "f").1 ≠
      (registerTopLevelFunction emptyParserState "f").1 := by
  decide

/-- C7 (amended): registration through the variable-declarator path
(`tagVar`) is idempotent — a second registration of an already-tagged name
returns the previously created symbol and leaves the state unchanged — but
the function- and class-declaration handlers always create a fresh symbol
and re-tag the name with it, so there the last registration replaces the
previous one. -/
theorem tagVar_idempotent_function_register_fresh (ps : ParserState)
    (name : String) :
    tagVar (tagVar ps name).2 name = tagVar ps name ∧
      (registerTopLevelFunction ps name).1 = ps.nextId ∧
      (registerTopLevelFunction ps name).2.tags name = some ps.nextId ∧
      (registerTopLevelFunction ps name).2.nextId = ps.nextId + 1 := by
  refine ⟨?_, rfl, by simp [registerTopLevelFunction], rfl⟩
  rcases ht : ps.tags name with _ | fn
  · simp [tagVar, ht]
  · simp [tagVar, ht]

/- ----------------------------------------------------------------- -/
/- Reference attribution (C8)                                         -/
/- ----------------------------------------------------------------- -/

/-- C8: when an identifier reference resolves to a tagged TopLevelSymbol,
`addDependency` is invoked on it with the current top-level context symbol
when one is active and with the always-used sentinel otherwise; in
particular a reference with no active context makes the referenced
symbol's graph value always-used. -/
theorem expressionHook_attribution (g : Nat → Option GraphValue)
    (taggedSym c : Nat) :
    expressionHookOnTag g taggedSym (some c) =
        addDependency g taggedSym (DepArg.sym c) ∧
      expressionHookOnTag g taggedSym none taggedSym = some GraphValue.always := by
  constructor
  · rfl
  · simp [expressionHookOnTag, addDependency, setVal]

/- ----------------------------------------------------------------- -/
/- Publication (C9)                                                   -/
/- ----------------------------------------------------------------- -/

theorem pubFold_not_mem (g : Nat → Option GraphValue) :
    ∀ (pending : List Nat) (acc : Nat → Option UsedByExports) (d : Nat),
      d ∉ pending → pending.foldl (pubStep g) acc d = acc d := by
  intro pending
  induction pending with
  | nil => intro acc d h; rfl
  | cons p rest ih =>
    intro acc d h
    simp only [List.foldl_cons]
    rw [ih _ d (fun hr => h (List.mem_cons_of_mem p hr))]
    have hdp : d ≠ p := fun hh => h (by rw [hh]; exact List.mem_cons_self p rest)
    simp [pubStep, hdp]

theorem pubFold_mem (g : Nat → Option GraphValue) :
    ∀ (pending : List Nat) (acc : Nat → Option UsedByExports) (d : Nat),
      d ∈ pending →
      pending.foldl (pubStep g) acc d = some (publishDecision (g d)) := by
  intro pending
  induction pending with
  | nil => intro acc d h; simp at h
  | cons p rest ih =>
    intro acc d h
    by_cases hr : d ∈ rest
    · simp only [List.foldl_cons]
      exact ih _ d hr
    · have hdp : d = p := by
        rcases List.mem_cons.mp h with h1 | h2
        · exact h1
        · exact absurd h2 hr
      simp only [List.foldl_cons]
      rw [pubFold_not_mem g rest _ d hr]
      simp [pubStep, hdp]

/-- C9: every dependency in the pending set receives exactly one published
decision, derived from its graph value by the fixed mapping: unset maps to
not-used-by-any-export, the always-used sentinel to unconditionally-used,
and a leaf set to used-via-exactly-those-export-names. -/
theorem publication_decision (g : Nat → Option GraphValue) (pending : List Nat)
    (dep : Nat) (h : dep ∈ pending) :
    runPublication g pending dep = some (publishDecision (g dep)) ∧
      (g dep = none → publishDecision (g dep) = UsedByExports.notUsed) ∧
      (g dep = some GraphValue.always →
        publishDecision (g dep) = UsedByExports.always) ∧
      (∀ l, g dep = some (GraphValue.items l) →
        publishDecision (g dep) = UsedByExports.exportsSet l) := by
  refine ⟨pubFold_mem g pending _ dep h, ?_, ?_, ?_⟩
  · intro hv; rw [hv]; rfl
  · intro hv; rw [hv]; rfl
  · intro l hv; rw [hv]; rfl

theorem publication_decision_witness :
    runPublication exCycleG [5] 5 = some (publishDecision (exCycleG 5)) :=
  (publication_decision exCycleG [5] 5 (by decide)).1

/- ----------------------------------------------------------------- -/
/- Untracked declarators (C10)                                        -/
/- ----------------------------------------------------------------- -/

/-- C10: a top-level variable declarator whose binding is not a plain
identifier or that has no initializer is never tracked: the preDeclarator
hook skips it, and the combined declarator processing leaves the analysis
state unchanged — no TopLevelSymbol is registered, no dependency is
created, and nothing is added to the pending set. -/
theorem untracked_declarator_no_effect (topLevelScope : Bool)
    (d : VarDeclarator) (ps : ParserState)
    (h : d.init = none ∨ d.idType ≠ "Identifier") :
    preDeclarator topLevelScope d = PreDeclAction.skip ∧
      processDeclarator topLevelScope d ps = ps := by
  have hskip : preDeclarator topLevelScope d = PreDeclAction.skip := by
    rcases h with h | h
    · simp [preDeclarator, h]
    · rcases hi : d.init with _ | i
      · simp [preDeclarator, hi]
      · simp [preDeclarator, hi, h]
  exact ⟨hskip, by simp [processDeclarator, hskip]⟩

/-- A destructuring declarator `const { a } = f()`. -/
def patternDecl : VarDeclarator :=
  ⟨"ObjectPattern", "a", 0, some Expr.callExpression, 0, []⟩

theorem untracked_declarator_no_effect_witness :
    preDeclarator true patternDecl = PreDeclAction.skip ∧
      processDeclarator true patternDecl emptyParserState = emptyParserState :=
  untracked_declarator_no_effect true patternDecl emptyParserState
    (Or.inr (by decide))


/- ----------------------------------------------------------------- -/
/- Flattening leaves only leaf values (C6)                            -/
/- ----------------------------------------------------------------- -/

/-- A set of items holds only export-name strings, no symbol edges. -/
def isLeafOnly (l : List GraphItem) : Bool :=
  l.all (fun e => match e with
    | GraphItem.str _ => true
    | GraphItem.sym _ => false)

/-- A graph value is flat: unset, the always-used sentinel, or a set of
leaf strings only. -/
def isFlat : Option GraphValue → Bool
  | none => true
  | some GraphValue.always => true
  | some (GraphValue.items l) => isLeafOnly l

theorem isLeafOnly_addItem_str (l : List GraphItem) (s : String)
    (h : isLeafOnly l = true) :
    isLeafOnly (addItem l (GraphItem.str s)) = true := by
  unfold addItem
  split
  · exact h
  · simp only [isLeafOnly, List.all_append, List.all_cons, List.all_nil] at h ⊢
    simp [h]

theorem isLeafOnly_mergeStrings (l : List GraphItem) :
    ∀ acc, isLeafOnly acc = true → isLeafOnly (mergeStrings acc l) = true := by
  induction l with
  | nil => intro acc h; exact h
  | cons e rest ih =>
    intro acc h
    cases e with
    | str s => exact ih (addItem acc (GraphItem.str s)) (isLeafOnly_addItem_str acc s h)
    | sym k => exact ih acc h

/-- Every key outside the working set, other than the exception keys `P`
(keys whose expansion is in progress on the call stack), holds a flat
value. -/
def FlatOutside (st : FlattenState) (P : List Nat) : Prop :=
  ∀ k, k ∉ st.unexp → k ∉ P → isFlat (st.g k) = true

theorem notMem_of_notMem_erase {k key : Nat} {l : List Nat}
    (hne : k ≠ key) (h : k ∉ l.erase key) : k ∉ l := by
  intro hk
  exact h ((List.mem_erase_of_ne hne).mpr hk)

theorem expandItemsAux_flat (F : FlattenState → Nat → FlattenState)
    (hF : ∀ st k P, FlatOutside st P → FlatOutside (F st k) P) :
    ∀ (items : List GraphItem) (st : FlattenState) (key : Nat)
      (newSet : List GraphItem) (P : List Nat),
      FlatOutside st (key :: P) → isLeafOnly newSet = true →
      FlatOutside (expandItemsAux F st key items newSet) (key :: P) ∧
        isFlat ((expandItemsAux F st key items newSet).g key) = true := by
  intro items
  induction items with
  | nil =>
    intro st key newSet P hflat hleaf
    rw [expandItemsAux_nil]
    by_cases hnew : newSet = []
    · rw [if_pos hnew]
      constructor
      · intro k hk hkP
        have hne : k ≠ key := fun hh => hkP (hh ▸ List.mem_cons_self key P)
        simpa [setVal, hne] using hflat k hk hkP
      · simp [setVal, isFlat]
    · rw [if_neg hnew]
      constructor
      · intro k hk hkP
        have hne : k ≠ key := fun hh => hkP (hh ▸ List.mem_cons_self key P)
        simpa [setVal, hne] using hflat k hk hkP
      · simp [setVal, isFlat, hleaf]
  | cons e rest ih =>
    intro st key newSet P hflat hleaf
    cases e with
    | str s =>
      rw [expandItemsAux_str]
      exact ih st key _ P hflat (isLeafOnly_addItem_str newSet s hleaf)
    | sym k =>
      have hflat' : FlatOutside (F st k) (key :: P) := hF st k (key :: P) hflat
      rcases hv : (F st k).g k with _ | v
      · rw [expandItemsAux_sym_none F st key k rest newSet hv]
        exact ih (F st k) key newSet P hflat' hleaf
      · cases v with
        | always =>
          rw [expandItemsAux_sym_always F st key k rest newSet hv]
          constructor
          · intro k2 hk2 hk2P
            have hne : k2 ≠ key := fun hh => hk2P (hh ▸ List.mem_cons_self key P)
            simpa [setVal, hne] using hflat' k2 hk2 hk2P
          · simp [setVal, isFlat]
        | items l' =>
          rw [expandItemsAux_sym_items F st key k rest newSet l' hv]
          exact ih (F st k) key _ P hflat'
            (isLeafOnly_mergeStrings l' newSet hleaf)

theorem expand_flat : ∀ (f : Nat) (st : FlattenState) (key : Nat) (P : List Nat),
    FlatOutside st P → FlatOutside (expand f st key) P := by
  intro f
  induction f with
  | zero => intro st key P h; exact h
  | succ f ih =>
    intro st key P hflat
    by_cases hmem : key ∈ st.unexp
    · rcases hv : st.g key with _ | v
      · rw [expand_succ_none f st key hmem hv]
        intro k hk hkP
        by_cases hne : k = key
        · subst hne; simp [hv, isFlat]
        · exact hflat k (notMem_of_notMem_erase hne hk) hkP
      · cases v with
        | always =>
          rw [expand_succ_always f st key hmem hv]
          intro k hk hkP
          by_cases hne : k = key
          · subst hne; simp [hv, isFlat]
          · exact hflat k (notMem_of_notMem_erase hne hk) hkP
        | items l =>
          rw [expand_succ_items f st key l hmem hv]
          have hst1 : FlatOutside ⟨st.g, st.unexp.erase key⟩ (key :: P) := by
            intro k hk hkP
            have hne : k ≠ key := fun hh => hkP (hh ▸ List.mem_cons_self key P)
            exact hflat k (notMem_of_notMem_erase hne hk)
              (fun hh => hkP (List.mem_cons_of_mem key hh))
          have h2 := expandItemsAux_flat (fun s k => expand f s k)
            (fun s k P2 hh => ih s k P2 hh)
            l ⟨st.g, st.unexp.erase key⟩ key [] P hst1 rfl
          intro k hk hkP
          by_cases hne : k = key
          · subst hne; exact h2.2
          · refine h2.1 k hk ?_
            intro hh
            rcases List.mem_cons.mp hh with h1 | h1
            · exact hne h1
            · exact hkP h1
    · rw [expand_not_mem (f + 1) st key hmem]
      exact hflat

/- ----------------------------------------------------------------- -/
/- Folding over the whole working set                                 -/
/- ----------------------------------------------------------------- -/

theorem flattenOrder_unexp_sublist :
    ∀ (order : List Nat) (st : FlattenState),
      List.Sublist (flattenOrder st order).unexp st.unexp := by
  intro order
  induction order with
  | nil => intro st; exact List.Sublist.refl _
  | cons a rest ih =>
    intro st
    exact (ih (expandTop st a)).trans (expand_sublist _ st a)

theorem flattenOrder_removes :
    ∀ (order : List Nat) (st : FlattenState) (k : Nat),
      st.unexp.Nodup → k ∈ order → k ∉ (flattenOrder st order).unexp := by
  intro order
  induction order with
  | nil => intro st k _ hk; simp at hk
  | cons a rest ih =>
    intro st k hnd hk
    have hnd' : (expandTop st a).unexp.Nodup :=
      hnd.sublist (expand_sublist _ st a)
    rcases List.mem_cons.mp hk with h1 | h1
    · subst h1
      have hrem : k ∉ (expandTop st k).unexp :=
        expand_removes _ st k (by omega) hnd
      exact fun hh => hrem ((flattenOrder_unexp_sublist rest (expandTop st k)).subset hh)
    · exact ih (expandTop st a) k hnd' h1

theorem flattenOrder_flat :
    ∀ (order : List Nat) (st : FlattenState) (P : List Nat),
      FlatOutside st P → FlatOutside (flattenOrder st order) P := by
  intro order
  induction order with
  | nil => intro st P h; exact h
  | cons a rest ih =>
    intro st P h
    exact ih (expandTop st a) P (expand_flat _ st a P h)

/-- C6: after flattening completes over the whole working set, every key's
graph value is unset, the always-used sentinel, or a set containing only
leaf export-name strings — no value contains an internal edge to another
TopLevelSymbol. -/
theorem flatten_no_internal_edges (st : FlattenState) (order : List Nat)
    (hnd : st.unexp.Nodup)
    (hdom : ∀ k, st.g k ≠ none → k ∈ st.unexp)
    (hcov : ∀ k, k ∈ st.unexp → k ∈ order) :
    ∀ k, isFlat ((flattenOrder st order).g k) = true := by
  intro k
  by_cases hin : k ∈ (flattenOrder st order).unexp
  · have h1 : k ∈ st.unexp := (flattenOrder_unexp_sublist order st).subset hin
    exact absurd hin (flattenOrder_removes order st k hnd (hcov k h1))
  · have hinit : FlatOutside st [] := by
      intro k2 hk2 _
      by_cases hne : st.g k2 = none
      · rw [hne]; rfl
      · exact absurd (hdom k2 hne) hk2
    exact flattenOrder_flat order st [] hinit k hin (List.not_mem_nil k)

theorem flatten_no_internal_edges_witness :
    isFlat ((flattenOrder exCycleSt [0, 1]).g 0) = true :=
  flatten_no_internal_edges exCycleSt [0, 1] (by decide)
    (fun k h => by
      by_cases h0 : k = 0
      · subst h0; simp [exCycleSt]
      · by_cases h1 : k = 1
        · subst h1; simp [exCycleSt]
        · exact absurd (by simp [exCycleSt, exCycleG, h0, h1]) h)
    (by decide) 0

/- ----------------------------------------------------------------- -/
/- The always-used sentinel is absorbing (C5)                         -/
/- ----------------------------------------------------------------- -/

theorem expandItemsAux_keeps_always (kk : Nat)
    (F : FlattenState → Nat → FlattenState)
    (hF : ∀ st key, st.g kk = some GraphValue.always →
      (F st key).g kk = some GraphValue.always) :
    ∀ (items : List GraphItem) (st : FlattenState) (key : Nat)
      (newSet : List GraphItem), key ≠ kk →
      st.g kk = some GraphValue.always →
      (expandItemsAux F st key items newSet).g kk = some GraphValue.always := by
  intro items
  induction items with
  | nil =>
    intro st key newSet hne hkk
    rw [expandItemsAux_nil]
    have hk2 : kk ≠ key := fun hh => hne hh.symm
    by_cases hnew : newSet = []
    · rw [if_pos hnew]; simpa [setVal, hk2] using hkk
    · rw [if_neg hnew]; simpa [setVal, hk2] using hkk
  | cons e rest ih =>
    intro st key newSet hne hkk
    cases e with
    | str s =>
      rw [expandItemsAux_str]
      exact ih st key _ hne hkk
    | sym k =>
      have hkk' : (F st k).g kk = some GraphValue.always := hF st k hkk
      rcases hv : (F st k).g k with _ | v
      · rw [expandItemsAux_sym_none F st key k rest newSet hv]
        exact ih (F st k) key newSet hne hkk'
      · cases v with
        | always =>
          rw [expandItemsAux_sym_always F st key k rest newSet hv]
          have hk2 : kk ≠ key := fun hh => hne hh.symm
          simpa [setVal, hk2] using hkk'
        | items l' =>
          rw [expandItemsAux_sym_items F st key k rest newSet l' hv]
          exact ih (F st k) key _ hne hkk'

theorem expand_keeps_always (kk : Nat) :
    ∀ (f : Nat) (st : FlattenState) (key : Nat),
      st.g kk = some GraphValue.always →
      (expand f st key).g kk = some GraphValue.always := by
  intro f
  induction f with
  | zero => intro st key h; exact h
  | succ f ih =>
    intro st key hkk
    by_cases hmem : key ∈ st.unexp
    · rcases hv : st.g key with _ | v
      · rw [expand_succ_none f st key hmem hv]; exact hkk
      · cases v with
        | always => rw [expand_succ_always f st key hmem hv]; exact hkk
        | items l =>
          have hne : key ≠ kk := by
            intro hh
            rw [hh, hkk] at hv
            exact absurd hv (by simp)
          rw [expand_succ_items f st key l hmem hv]
          exact expandItemsAux_keeps_always kk (fun s k => expand f s k)
            (fun s k hh => ih s k hh) l ⟨st.g, st.unexp.erase key⟩ key [] hne hkk
    · rw [expand_not_mem (f + 1) st key hmem]; exact hkk

theorem flattenOrder_keeps_always (kk : Nat) :
    ∀ (order : List Nat) (st : FlattenState),
      st.g kk = some GraphValue.always →
      (flattenOrder st order).g kk = some GraphValue.always := by
  intro order
  induction order with
  | nil => intro st h; exact h
  | cons a rest ih =>
    intro st h
    exact ih (expandTop st a) (expand_keeps_always kk _ st a h)

/-- C5: once a node's graph value is the always-used sentinel, no
subsequent `addDependency` call on it and no run of the flattening loop
(over any working set and any order) ever changes that node's value to a
bounded leaf set or to unset. -/
theorem always_absorbing (g : Nat → Option GraphValue) (k : Nat)
    (h : g k = some GraphValue.always) :
    (∀ self dep, addDependency g self dep k = some GraphValue.always) ∧
      (∀ unexp order,
        (flattenOrder ⟨g, unexp⟩ order).g k = some GraphValue.always) := by
  constructor
  · intro self dep
    by_cases hs : self = k
    · subst hs
      cases dep with
      | always => simp [addDependency, setVal]
      | str s => simp [addDependency, addDependencyItem, h]
      | sym k2 => simp [addDependency, addDependencyItem, h]
    · have hk : k ≠ self := fun hh => hs hh.symm
      cases dep with
      | always => simpa [addDependency, setVal, hk] using h
      | str s =>
        rcases hg : g self with _ | v
        · simpa [addDependency, addDependencyItem, hg, setVal, hk] using h
        · cases v with
          | always => simpa [addDependency, addDependencyItem, hg] using h
          | items l => simpa [addDependency, addDependencyItem, hg, setVal, hk] using h
      | sym k2 =>
        rcases hg : g self with _ | v
        · simpa [addDependency, addDependencyItem, hg, setVal, hk] using h
        · cases v with
          | always => simpa [addDependency, addDependencyItem, hg] using h
          | items l => simpa [addDependency, addDependencyItem, hg, setVal, hk] using h
  · intro unexp order
    exact flattenOrder_keeps_always k order ⟨g, unexp⟩ h

/-- A graph whose key 0 is already always-used, with an edge 1 → 0. -/
def alwaysG : Nat → Option GraphValue := fun n =>
  if n = 0 then some GraphValue.always
  else if n = 1 then some (GraphValue.items [GraphItem.sym 0]) else none

theorem always_absorbing_witness :
    addDependency alwaysG 0 (DepArg.str "e") 0 = some GraphValue.always ∧
      (flattenOrder ⟨alwaysG, [0, 1]⟩ [0, 1]).g 0 = some GraphValue.always :=
  ⟨(always_absorbing alwaysG 0 rfl).1 0 (DepArg.str "e"),
   (always_absorbing alwaysG 0 rfl).2 [0, 1] [0, 1]⟩

/- ----------------------------------------------------------------- -/
/- Order independence on acyclic graphs (C1)                          -/
/- ----------------------------------------------------------------- -/

/-- A function `rank` witnesses acyclicity of the initial graph `g0`:
every internal edge strictly decreases the rank. -/
def RankOK (g0 : Nat → Option GraphValue) (rank : Nat → Nat) : Prop :=
  ∀ k l k', g0 k = some (GraphValue.items l) → GraphItem.sym k' ∈ l →
    rank k' < rank k

/-- The value the item loop of `expand` computes when every child already
holds its final value, given by `child`. -/
def specPCFaux (child : Nat → Option GraphValue) :
    List GraphItem → List GraphItem → Option GraphValue
  | [], acc => if acc = [] then none else some (GraphValue.items acc)
  | GraphItem.str s :: rest, acc =>
    specPCFaux child rest (addItem acc (GraphItem.str s))
  | GraphItem.sym k :: rest, acc =>
    match child k with
    | some GraphValue.always => some GraphValue.always
    | some (GraphValue.items l') => specPCFaux child rest (mergeStrings acc l')
    | none => specPCFaux child rest acc

/-- The intended final value of a key of `g0`, computed top-down with a
fuel bound on the rank. -/
def specVF (g0 : Nat → Option GraphValue) : Nat → Nat → Option GraphValue
  | 0, _ => none
  | f + 1, k =>
    match g0 k with
    | none => none
    | some GraphValue.always => some GraphValue.always
    | some (GraphValue.items l) => specPCFaux (fun k2 => specVF g0 f k2) l []

/-- The intended final value of a key of an acyclic graph. -/
def specV (g0 : Nat → Option GraphValue) (rank : Nat → Nat) (k : Nat) :
    Option GraphValue :=
  specVF g0 (rank k + 1) k

theorem specPCFaux_sym_always (child : Nat → Option GraphValue) (k : Nat)
    (rest acc : List GraphItem) (h : child k = some GraphValue.always) :
    specPCFaux child (GraphItem.sym k :: rest) acc = some GraphValue.always := by
  simp [specPCFaux, h]

theorem specPCFaux_sym_items (child : Nat → Option GraphValue) (k : Nat)
    (rest acc l' : List GraphItem) (h : child k = some (GraphValue.items l')) :
    specPCFaux child (GraphItem.sym k :: rest) acc =
      specPCFaux child rest (mergeStrings acc l') := by
  simp [specPCFaux, h]

theorem specPCFaux_sym_none (child : Nat → Option GraphValue) (k : Nat)
    (rest acc : List GraphItem) (h : child k = none) :
    specPCFaux child (GraphItem.sym k :: rest) acc =
      specPCFaux child rest acc := by
  simp [specPCFaux, h]

theorem specPCFaux_congr (c1 c2 : Nat → Option GraphValue) :
    ∀ (items acc : List GraphItem),
      (∀ k, GraphItem.sym k ∈ items → c1 k = c2 k) →
      specPCFaux c1 items acc = specPCFaux c2 items acc := by
  intro items
  induction items with
  | nil => intro acc h; rfl
  | cons e rest ih =>
    intro acc h
    cases e with
    | str s =>
      exact ih (addItem acc (GraphItem.str s))
        (fun k hk => h k (List.mem_cons_of_mem _ hk))
    | sym k =>
      have hck : c1 k = c2 k := h k (List.mem_cons_self _ _)
      rcases hv : c1 k with _ | v
      · rw [specPCFaux_sym_none c1 k rest acc hv,
          specPCFaux_sym_none c2 k rest acc (hck ▸ hv)]
        exact ih acc (fun k2 hk2 => h k2 (List.mem_cons_of_mem _ hk2))
      · cases v with
        | always =>
          rw [specPCFaux_sym_always c1 k rest acc hv,
            specPCFaux_sym_always c2 k rest acc (hck ▸ hv)]
        | items l' =>
          rw [specPCFaux_sym_items c1 k rest acc l' hv,
            specPCFaux_sym_items c2 k rest acc l' (hck ▸ hv)]
          exact ih _ (fun k2 hk2 => h k2 (List.mem_cons_of_mem _ hk2))

theorem specVF_irrel (g0 : Nat → Option GraphValue) (rank : Nat → Nat)
    (hrank : RankOK g0 rank) :
    ∀ (n k f1 f2 : Nat), rank k < n → rank k < f1 → rank k < f2 →
      specVF g0 f1 k = specVF g0 f2 k := by
  intro n
  induction n with
  | zero => intro k f1 f2 hn _ _; exact absurd hn (Nat.not_lt_zero _)
  | succ n ih =>
    intro k f1 f2 hn h1 h2
    obtain ⟨a, rfl⟩ : ∃ a, f1 = a + 1 := ⟨f1 - 1, by omega⟩
    obtain ⟨b, rfl⟩ : ∃ b, f2 = b + 1 := ⟨f2 - 1, by omega⟩
    rcases hg : g0 k with _ | v
    · simp [specVF, hg]
    · cases v with
      | always => simp [specVF, hg]
      | items l =>
        simp only [specVF, hg]
        exact specPCFaux_congr _ _ l []
          (fun k' hk' => by
            have hr : rank k' < rank k := hrank k l k' hg hk'
            exact ih k' a b (by omega) (by omega) (by omega))

theorem specV_none (g0 : Nat → Option GraphValue) (rank : Nat → Nat) (key : Nat)
    (hg : g0 key = none) : specV g0 rank key = none := by
  unfold specV
  simp [specVF, hg]

theorem specV_always (g0 : Nat → Option GraphValue) (rank : Nat → Nat)
    (key : Nat) (hg : g0 key = some GraphValue.always) :
    specV g0 rank key = some GraphValue.always := by
  unfold specV
  simp [specVF, hg]

theorem specV_items (g0 : Nat → Option GraphValue) (rank : Nat → Nat)
    (hrank : RankOK g0 rank) (key : Nat) (l : List GraphItem)
    (hg : g0 key = some (GraphValue.items l)) :
    specV g0 rank key = specPCFaux (fun k => specV g0 rank k) l [] := by
  unfold specV
  simp only [specVF, hg]
  exact specPCFaux_congr _ _ l []
    (fun k' hk' => by
      have hr : rank k' < rank key := hrank key l k' hg hk'
      exact specVF_irrel g0 rank hrank (rank k' + 1) k' (rank key) (rank k' + 1)
        (by omega) (by omega) (by omega))

/-- Invariant tying a flattener state to the initial graph `g0` during an
acyclic run: keys outside the working set — other than the in-progress
keys `P` on the call stack — already hold their final value; keys still in
the working set hold their original value; in-progress keys are outside
the working set; and the working set is duplicate-free. -/
structure GoodSt (g0 : Nat → Option GraphValue) (rank : Nat → Nat)
    (st : FlattenState) (P : List Nat) : Prop where
  resolved : ∀ k, k ∉ st.unexp → k ∉ P → st.g k = specV g0 rank k
  original : ∀ k, k ∈ st.unexp → st.g k = g0 k
  stack : ∀ p, p ∈ P → p ∉ st.unexp
  nodup : st.unexp.Nodup

theorem expandItemsAux_good (g0 : Nat → Option GraphValue) (rank : Nat → Nat)
    (hrank : RankOK g0 rank) (N : Nat) (F : FlattenState → Nat → FlattenState)
    (hsub : ∀ st k, List.Sublist (F st k).unexp st.unexp)
    (hE : ∀ st k P, GoodSt g0 rank st P → (∀ p, p ∈ P → rank k < rank p) →
      st.unexp.length < N →
      GoodSt g0 rank (F st k) P ∧ k ∉ (F st k).unexp) :
    ∀ (items : List GraphItem) (st : FlattenState) (key : Nat)
      (acc : List GraphItem) (P : List Nat) (l0 : List GraphItem),
      GoodSt g0 rank st (key :: P) →
      (∀ p, p ∈ P → rank key < rank p) →
      st.unexp.length < N →
      g0 key = some (GraphValue.items l0) →
      (∀ e, e ∈ items → e ∈ l0) →
      GoodSt g0 rank (expandItemsAux F st key items acc) (key :: P) ∧
        (expandItemsAux F st key items acc).g key =
          specPCFaux (fun k => specV g0 rank k) items acc := by
  intro items
  induction items with
  | nil =>
    intro st key acc P l0 hg hp hlen hg0 hitems
    have hkeyout : key ∉ st.unexp := hg.stack key (List.mem_cons_self key P)
    rw [expandItemsAux_nil]
    have hmain : ∀ v : Option GraphValue,
        GoodSt g0 rank ⟨setVal st.g key v, st.unexp⟩ (key :: P) := by
      intro v
      refine ⟨?_, ?_, hg.stack, hg.nodup⟩
      · intro k hk hkP
        have hne : k ≠ key := fun hh => hkP (hh ▸ List.mem_cons_self key P)
        have := hg.resolved k hk hkP
        simpa [setVal, hne] using this
      · intro k hk
        have hne : k ≠ key := fun hh => hkeyout (hh ▸ hk)
        have := hg.original k hk
        simpa [setVal, hne] using this
    by_cases hacc : acc = []
    · rw [if_pos hacc]
      exact ⟨hmain none, by simp [setVal, specPCFaux, hacc]⟩
    · rw [if_neg hacc]
      exact ⟨hmain (some (GraphValue.items acc)), by simp [setVal, specPCFaux, hacc]⟩
  | cons e rest ih =>
    intro st key acc P l0 hg hp hlen hg0 hitems
    cases e with
    | str s =>
      rw [expandItemsAux_str]
      have h2 := ih st key (addItem acc (GraphItem.str s)) P l0 hg hp hlen hg0
        (fun e2 he2 => hitems e2 (List.mem_cons_of_mem _ he2))
      exact ⟨h2.1, h2.2⟩
    | sym k =>
      have hrk : rank k < rank key :=
        hrank key l0 k hg0 (hitems (GraphItem.sym k) (List.mem_cons_self _ _))
      have hranks : ∀ p, p ∈ key :: P → rank k < rank p := by
        intro p hpmem
        rcases List.mem_cons.mp hpmem with h1 | h1
        · exact h1 ▸ hrk
        · exact Nat.lt_trans hrk (hp p h1)
      have hE2 := hE st k (key :: P) hg hranks hlen
      have hkP : k ∉ key :: P := by
        intro hh
        exact absurd (hranks k hh) (lt_irrefl _)
      have hchild : (F st k).g k = specV g0 rank k :=
        hE2.1.resolved k hE2.2 hkP
      have hlen' : (F st k).unexp.length < N := by
        have := (hsub st k).length_le
        omega
      have hrest : ∀ e2, e2 ∈ rest → e2 ∈ l0 :=
        fun e2 he2 => hitems e2 (List.mem_cons_of_mem _ he2)
      rcases hv : (F st k).g k with _ | v
      · rw [expandItemsAux_sym_none F st key k rest acc hv]
        have h2 := ih (F st k) key acc P l0 hE2.1 hp hlen' hg0 hrest
        rw [specPCFaux_sym_none (fun k2 => specV g0 rank k2) k rest acc
          (hv ▸ hchild.symm)]
        exact ⟨h2.1, h2.2⟩
      · cases v with
        | always =>
          rw [expandItemsAux_sym_always F st key k rest acc hv]
          rw [specPCFaux_sym_always (fun k2 => specV g0 rank k2) k rest acc
            (hv ▸ hchild.symm)]
          have hkeyout : key ∉ (F st k).unexp :=
            hE2.1.stack key (List.mem_cons_self key P)
          constructor
          · refine ⟨?_, ?_, hE2.1.stack, hE2.1.nodup⟩
            · intro k2 hk2 hk2P
              have hne : k2 ≠ key := fun hh => hk2P (hh ▸ List.mem_cons_self key P)
              have := hE2.1.resolved k2 hk2 hk2P
              simpa [setVal, hne] using this
            · intro k2 hk2
              have hne : k2 ≠ key := fun hh => hkeyout (hh ▸ hk2)
              have := hE2.1.original k2 hk2
              simpa [setVal, hne] using this
          · simp [setVal]
        | items l' =>
          rw [expandItemsAux_sym_items F st key k rest acc l' hv]
          rw [specPCFaux_sym_items (fun k2 => specV g0 rank k2) k rest acc l'
            (hv ▸ hchild.symm)]
          have h2 := ih (F st k) key (mergeStrings acc l') P l0 hE2.1 hp hlen' hg0 hrest
          exact ⟨h2.1, h2.2⟩

theorem expand_good (g0 : Nat → Option GraphValue) (rank : Nat → Nat)
    (hrank : RankOK g0 rank) :
    ∀ (f : Nat) (st : FlattenState) (key : Nat) (P : List Nat),
      GoodSt g0 rank st P → (∀ p, p ∈ P → rank key < rank p) →
      st.unexp.length < f →
      GoodSt g0 rank (expand f st key) P ∧ key ∉ (expand f st key).unexp := by
  intro f
  induction f with
  | zero => intro st key P _ _ hlen; exact absurd hlen (Nat.not_lt_zero _)
  | succ f ih =>
    intro st key P hg hp hlen
    by_cases hmem : key ∈ st.unexp
    · have hval : st.g key = g0 key := hg.original key hmem
      have hkeyerase : key ∉ st.unexp.erase key := hg.nodup.not_mem_erase
      have hnderase : (st.unexp.erase key).Nodup :=
        hg.nodup.sublist (List.erase_sublist key st.unexp)
      have hstackerase : ∀ p, p ∈ P → p ∉ st.unexp.erase key :=
        fun p hpm hh => hg.stack p hpm ((List.erase_sublist key st.unexp).subset hh)
      rcases hv : st.g key with _ | v
      · have hg0 : g0 key = none := hval.symm.trans hv
        rw [expand_succ_none f st key hmem hv]
        refine ⟨⟨?_, ?_, hstackerase, hnderase⟩, hkeyerase⟩
        · intro k hk hkP
          by_cases hne : k = key
          · subst hne
            rw [hv, specV_none g0 rank k hg0]
          · exact hg.resolved k (notMem_of_notMem_erase hne hk) hkP
        · intro k hk
          exact hg.original k ((List.erase_sublist key st.unexp).subset hk)
      · cases v with
        | always =>
          have hg0 : g0 key = some GraphValue.always := hval.symm.trans hv
          rw [expand_succ_always f st key hmem hv]
          refine ⟨⟨?_, ?_, hstackerase, hnderase⟩, hkeyerase⟩
          · intro k hk hkP
            by_cases hne : k = key
            · subst hne
              rw [hv, specV_always g0 rank k hg0]
            · exact hg.resolved k (notMem_of_notMem_erase hne hk) hkP
          · intro k hk
            exact hg.original k ((List.erase_sublist key st.unexp).subset hk)
        | items l =>
          have hg0 : g0 key = some (GraphValue.items l) := hval.symm.trans hv
          rw [expand_succ_items f st key l hmem hv]
          have hGood1 : GoodSt g0 rank ⟨st.g, st.unexp.erase key⟩ (key :: P) := by
            refine ⟨?_, ?_, ?_, hnderase⟩
            · intro k hk hkP
              have hne : k ≠ key := fun hh => hkP (hh ▸ List.mem_cons_self key P)
              exact hg.resolved k (notMem_of_notMem_erase hne hk)
                (fun hh => hkP (List.mem_cons_of_mem key hh))
            · intro k hk
              exact hg.original k ((List.erase_sublist key st.unexp).subset hk)
            · intro p hpm
              rcases List.mem_cons.mp hpm with h1 | h1
              · exact h1 ▸ hkeyerase
              · exact hstackerase p h1
          have hlen1 : (st.unexp.erase key).length < f := by
            have h1 : (st.unexp.erase key).length = st.unexp.length - 1 :=
              List.length_erase_of_mem hmem
            have h2 : st.unexp ≠ [] := List.ne_nil_of_mem hmem
            have h3 : 0 < st.unexp.length := List.length_pos.mpr h2
            omega
          have h2 := expandItemsAux_good g0 rank hrank f (fun s k => expand f s k)
            (fun s k => expand_sublist f s k)
            (fun s k P2 hgg hpp hll => ih s k P2 hgg hpp hll)
            l ⟨st.g, st.unexp.erase key⟩ key [] P l hGood1 hp hlen1 hg0
            (fun e he => he)
          have hsubr : List.Sublist
              (expandItemsAux (fun s k => expand f s k)
                ⟨st.g, st.unexp.erase key⟩ key l []).unexp
              (st.unexp.erase key) :=
            expandItemsAux_sublist (fun s k => expand f s k)
              (fun s k => expand_sublist f s k) l ⟨st.g, st.unexp.erase key⟩ key []
          have hkeyfin : key ∉ (expandItemsAux (fun s k => expand f s k)
              ⟨st.g, st.unexp.erase key⟩ key l []).unexp :=
            fun hh => hkeyerase (hsubr.subset hh)
          refine ⟨⟨?_, h2.1.original, ?_, h2.1.nodup⟩, hkeyfin⟩
          · intro k hk hkP
            by_cases hne : k = key
            · subst hne
              rw [h2.2, ← specV_items g0 rank hrank k l hg0]
            · exact h2.1.resolved k hk (by
                intro hh
                rcases List.mem_cons.mp hh with h1 | h1
                · exact hne h1
                · exact hkP h1)
          · intro p hpm
            exact h2.1.stack p (List.mem_cons_of_mem key hpm)
    · rw [expand_not_mem (f + 1) st key hmem]
      exact ⟨hg, hmem⟩

theorem flattenOrder_good (g0 : Nat → Option GraphValue) (rank : Nat → Nat)
    (hrank : RankOK g0 rank) :
    ∀ (order : List Nat) (st : FlattenState),
      GoodSt g0 rank st [] → GoodSt g0 rank (flattenOrder st order) [] := by
  intro order
  induction order with
  | nil => intro st h; exact h
  | cons a rest ih =>
    intro st h
    have h1 := expand_good g0 rank hrank (st.unexp.length + 1) st a [] h
      (fun p hp => absurd hp (List.not_mem_nil p)) (by omega)
    exact ih (expandTop st a) h1.1

theorem flattenOrder_spec (g0 : Nat → Option GraphValue) (rank : Nat → Nat)
    (hrank : RankOK g0 rank) (unexp order : List Nat)
    (hnd : unexp.Nodup)
    (hdom : ∀ k, g0 k ≠ none → k ∈ unexp)
    (hcov : ∀ k, k ∈ unexp → k ∈ order) :
    ∀ k, (flattenOrder ⟨g0, unexp⟩ order).g k = specV g0 rank k := by
  have hinit : GoodSt g0 rank ⟨g0, unexp⟩ [] := by
    refine ⟨?_, fun k _ => rfl, fun p hp => absurd hp (List.not_mem_nil p), hnd⟩
    intro k hk _
    by_cases hz : g0 k = none
    · show g0 k = specV g0 rank k
      rw [hz, specV_none g0 rank k hz]
    · exact absurd (hdom k hz) hk
  have hfin := flattenOrder_good g0 rank hrank order ⟨g0, unexp⟩ hinit
  intro k
  by_cases hin : k ∈ (flattenOrder ⟨g0, unexp⟩ order).unexp
  · have h1 : k ∈ unexp := (flattenOrder_unexp_sublist order ⟨g0, unexp⟩).subset hin
    exact absurd hin (flattenOrder_removes order ⟨g0, unexp⟩ k hnd (hcov k h1))
  · exact hfin.resolved k hin (List.not_mem_nil k)

/-- C1 (amended): for every finite ACYCLIC usage graph — one admitting a
rank function that strictly decreases along every internal edge — expanding
the keys of the working set in any two orders that cover the working set
yields the same final graph value (unset, always-used, or leaf set) for
every key.  On cyclic graphs the result can depend on the order; see the
counterexample. -/
theorem flatten_order_independent_on_acyclic (g0 : Nat → Option GraphValue)
    (rank : Nat → Nat) (unexp order1 order2 : List Nat)
    (hrank : RankOK g0 rank) (hnd : unexp.Nodup)
    (hdom : ∀ k, g0 k ≠ none → k ∈ unexp)
    (hcov1 : ∀ k, k ∈ unexp → k ∈ order1)
    (hcov2 : ∀ k, k ∈ unexp → k ∈ order2) (k : Nat) :
    (flattenOrder ⟨g0, unexp⟩ order1).g k = (flattenOrder ⟨g0, unexp⟩ order2).g k :=
  (flattenOrder_spec g0 rank hrank unexp order1 hnd hdom hcov1 k).trans
    (flattenOrder_spec g0 rank hrank unexp order2 hnd hdom hcov2 k).symm

/-- The cyclic graph 0 → {1, 2}, 1 → {0}, 2 → {"x"}, as would arise from a
module `function a() { b(); } function b() { a(); } export function c()
{ a(); }` with 0 = a, 1 = b, 2 = c and "x" the export name of c. -/
def cycleCexG : Nat → Option GraphValue := fun n =>
  if n = 0 then some (GraphValue.items [GraphItem.sym 1, GraphItem.sym 2])
  else if n = 1 then some (GraphValue.items [GraphItem.sym 0])
  else if n = 2 then some (GraphValue.items [GraphItem.str "x"])
  else none

/-- C1 counterexample: on the cyclic graph `cycleCexG`, expanding the
working set in order [0, 1, 2] leaves key 1 unset, while order [1, 0, 2]
resolves key 1 to the leaf set containing "x" — the final graph value of a
key is NOT independent of the expansion order. -/
theorem flatten_order_dependent_on_cycle :
    (flattenOrder ⟨cycleCexG, [0, 1, 2]⟩ [0, 1, 2]).g 1 = none ∧
      (flattenOrder ⟨cycleCexG, [0, 1, 2]⟩ [1, 0, 2]).g 1 =
        some (GraphValue.items [GraphItem.str "x"]) ∧
      (flattenOrder ⟨cycleCexG, [0, 1, 2]⟩ [0, 1, 2]).g 1 ≠
        (flattenOrder ⟨cycleCexG, [0, 1, 2]⟩ [1, 0, 2]).g 1 :=
  ⟨by decide, by decide, by decide⟩

/-- An acyclic graph 0 → {1}, 1 → {"x"}, with rank 0 ↦ 1, 1 ↦ 0. -/
def acyclicWG : Nat → Option GraphValue := fun n =>
  if n = 0 then some (GraphValue.items [GraphItem.sym 1])
  else if n = 1 then some (GraphValue.items [GraphItem.str "x"]) else none

def acyclicWRank : Nat → Nat := fun n => if n = 0 then 1 else 0

theorem flatten_order_independent_on_acyclic_witness :
    (flattenOrder ⟨acyclicWG, [0, 1]⟩ [0, 1]).g 1 =
      (flattenOrder ⟨acyclicWG, [0, 1]⟩ [1, 0]).g 1 :=
  flatten_order_independent_on_acyclic acyclicWG acyclicWRank [0, 1] [0, 1] [1, 0]
    (by
      intro k l k' hg hm
      by_cases h0 : k = 0
      · subst h0
        have hl : l = [GraphItem.sym 1] := by
          have := hg
          simp [acyclicWG] at this
          exact this.symm
        subst hl
        have hk1 : k' = 1 := by simpa using hm
        subst hk1
        decide
      · by_cases h1 : k = 1
        · subst h1
          have hl : l = [GraphItem.str "x"] := by
            have := hg
            simp [acyclicWG] at this
            exact this.symm
          subst hl
          simp at hm
        · simp [acyclicWG, h0, h1] at hg)
    (by decide)
    (fun k h => by
      by_cases h0 : k = 0
      · subst h0; simp
      · by_cases h1 : k = 1
        · subst h1; simp
        · exact absurd (by simp [acyclicWG, h0, h1]) h)
    (by decide) (by decide) 1
